import Mathlib

/-!
Verification of the element-walker core of `dcmutl.py`.

The program traverses a parsed DICOM dataset (a tag-ordered list of data
elements, where a "Sequence" (VR `SQ`) element holds an ordered list of
nested datasets) and serializes it to three shapes:

* `ds_to_dict`           — a nested Python dictionary (`src/dcmutl.py:403-419`);
* `extract_all_elements` — an indented, annotated list of text lines
                           (`src/dcmutl.py:526-550`);
* `get_dicom_elements_file` — a flat list of `"<tag> --> <element>"` lines for
                           the top-level elements (`src/dcmutl.py:569-577`);
* `get_image_index`      — recursive modulo-cycling (`src/dcmutl.py:385-400`).

The embedding models a dataset as a list of elements.  An element carries the
string fields the traversals read: the display form of its numeric tag
(`elem.tag` rendered by an f-string), its dictionary keyword (`elem.keyword`,
`""` when absent), its display name (`elem.name`), the default display form of
the whole data element (`str(element)`, used by the flat listing), and its
value.  pydicom guarantees that an element's VR is `"SQ"` exactly when its
value is a Sequence of datasets, so the source's `elem.VR == "SQ"` test is
embedded as the constructor distinction `raw` / `sq`; for a non-sequence
element only the string form `str(elem.value)` of the value is ever used, so
that string is what the `raw` constructor stores.
-/

namespace Dcmutl

/-- A single DICOM data element.  `raw` is a non-sequence element (its `value`
field is the string form `str(elem.value)`); `sq` is a VR-`SQ` element whose
value is an ordered list of nested datasets (each a list of elements). -/
inductive Elem : Type where
  | raw (tag keyword name display value : String)
  | sq (tag keyword name display : String) (items : List (List Elem))

/-- A parsed dataset: its elements in tag order. -/
abbrev Dataset := List Elem

/-- Display name of an element (`elem.name` in pydicom). -/
def Elem.name : Elem → String
  | .raw _ _ n _ _ => n
  | .sq _ _ n _ _ => n

/-- Display form of the numeric tag of an element (`elem.tag`). -/
def Elem.tag : Elem → String
  | .raw t _ _ _ _ => t
  | .sq t _ _ _ _ => t

/-- Dictionary keyword of an element (`elem.keyword`; `""` when the tag has no
dictionary keyword). -/
def Elem.keyword : Elem → String
  | .raw _ k _ _ _ => k
  | .sq _ k _ _ _ => k

/-- Default display form of the whole data element (`str(element)`). -/
def Elem.display : Elem → String
  | .raw _ _ _ d _ => d
  | .sq _ _ _ d _ => d

/-- Python's `elem.keyword or elem.tag` (src/dcmutl.py:538): the keyword when
it is non-empty (truthy), otherwise the display form of the numeric tag. -/
def kwOrTag (k t : String) : String :=
  if k = "" then t else k

/-- Value stored in the dictionary built by `ds_to_dict`: either the string
form of a non-sequence value, or a list of nested dictionaries for a
sequence. -/
inductive DVal : Type where
  | s (v : String)
  | l (items : List (List (String × DVal)))

/-- A Python dictionary with string keys, as the ordered association list of
its entries (insertion order, each key at most once). -/
abbrev PyDict := List (String × DVal)

/-- Python dictionary assignment `d[k] = v`: update the value in place when
the key is present (keeping its position), otherwise append the new entry. -/
def dictInsert : PyDict → String → DVal → PyDict
  | [], k, v => [(k, v)]
  | (k', v') :: rest, k, v =>
    if k' = k then (k', v) :: rest else (k', v') :: dictInsert rest k v

/-- Python dictionary access `d.get(k)`. -/
def dictLookup : PyDict → String → Option DVal
  | [], _ => none
  | (k', v') :: rest, k => if k' = k then some v' else dictLookup rest k

mutual

/-- Loop body of `ds_to_dict` (src/dcmutl.py:413-419): fold over the elements,
assigning `out[elem.name]` to the string form of the value, or to the list of
recursively converted nested datasets for a sequence element. -/
def dsLoop : Dataset → PyDict → PyDict
  | [], out => out
  | .raw _ _ n _ v :: rest, out => dsLoop rest (dictInsert out n (DVal.s v))
  | .sq _ _ n _ items :: rest, out =>
      dsLoop rest (dictInsert out n (DVal.l (dsList items)))

/-- The list comprehension `[ds_to_dict(item) for item in elem.value]`
(src/dcmutl.py:416). -/
def dsList : List (List Elem) → List PyDict
  | [] => []
  | item :: more => dsLoop item [] :: dsList more

end

/-- `ds_to_dict(ds)` (src/dcmutl.py:403-419): convert a dataset to a nested
dictionary, starting from the empty dictionary `out = {}`. -/
def ds_to_dict (ds : Dataset) : PyDict := dsLoop ds []

/-- The dictionary value `ds_to_dict` computes for one element: the string
form of a non-sequence value, the list of recursively converted nested
datasets for a sequence element. -/
def convElem : Elem → DVal
  | .raw _ _ _ _ v => DVal.s v
  | .sq _ _ _ _ items => DVal.l (items.map ds_to_dict)

/-- The last element of a dataset bearing a given display name, if any. -/
def lastNamed : Dataset → String → Option Elem
  | [], _ => none
  | e :: rest, nm =>
    match lastNamed rest nm with
    | some x => some x
    | none => if e.name = nm then some e else none

/-- Left-biased choice on optional dictionary values. -/
def oOr : Option DVal → Option DVal → Option DVal
  | some v, _ => some v
  | none, b => b

theorem dsList_eq_map (its : List (List Elem)) : dsList its = its.map ds_to_dict := by
  induction its with
  | nil => simp [dsList]
  | cons item more ih => simp [dsList, ih, ds_to_dict]

theorem dictLookup_insert_self (d : PyDict) (k : String) (v : DVal) :
    dictLookup (dictInsert d k v) k = some v := by
  induction d with
  | nil => simp [dictInsert, dictLookup]
  | cons hd rest ih =>
    obtain ⟨k', v'⟩ := hd
    by_cases h : k' = k
    · simp [dictInsert, dictLookup, h]
    · simp [dictInsert, dictLookup, h, ih]

theorem dictLookup_insert_ne (d : PyDict) (k k' : String) (v : DVal)
    (h : k' ≠ k) : dictLookup (dictInsert d k v) k' = dictLookup d k' := by
  induction d with
  | nil => simp [dictInsert, dictLookup, Ne.symm h]
  | cons hd rest ih =>
    obtain ⟨k₀, v₀⟩ := hd
    by_cases h₀ : k₀ = k
    · subst h₀
      simp [dictInsert, dictLookup, Ne.symm h]
    · simp [dictInsert, dictLookup, h₀, ih]

/-- Master lemma for the dictionary conversion: looking up a name in the
result of the `ds_to_dict` loop yields the conversion of the last element with
that name, falling back to the incoming dictionary. -/
theorem dsLoop_lookup (ds : Dataset) (out : PyDict) (nm : String) :
    dictLookup (dsLoop ds out) nm =
      oOr ((lastNamed ds nm).map convElem) (dictLookup out nm) := by
  induction ds generalizing out with
  | nil => simp [dsLoop, lastNamed, oOr]
  | cons e rest ih =>
    have step : ∀ out', dsLoop (e :: rest) out' =
        dsLoop rest (dictInsert out' e.name (convElem e)) := by
      intro out'
      cases e with
      | raw t k n d v => simp [dsLoop, Elem.name, convElem]
      | sq t k n d items => simp [dsLoop, Elem.name, convElem, dsList_eq_map]
    rw [step, ih]
    cases hl : lastNamed rest nm with
    | some x => simp [lastNamed, hl, oOr]
    | none =>
      by_cases hn : e.name = nm
      · subst hn
        simp [lastNamed, hl, oOr, dictLookup_insert_self]
      · simp [lastNamed, hl, oOr, hn,
          dictLookup_insert_ne out e.name nm (convElem e) (Ne.symm hn)]

/-- Python's `" " * indent`. -/
def indentStr (n : Nat) : String := String.mk (List.replicate n ' ')

/-- Python's `f"{path}.{keyword}" if path else keyword` (src/dcmutl.py:539):
the dotted path of an element. -/
def dottedPath (p kw : String) : String :=
  if p = "" then kw else p ++ "." ++ kw

/-- Python's `attrs is None or keyword in attrs` (src/dcmutl.py:549): the
keyword filter passes when no filter was given, or when the keyword is listed
in it. -/
def passesFilter (attrs : Option (List String)) (kw : String) : Bool :=
  match attrs with
  | none => true
  | some l => l.contains kw

mutual

/-- `extract_all_elements(ds, elements, indent, attrs, path)`
(src/dcmutl.py:526-550), with the mutable `elements` list threaded explicitly:
the result is the final contents of `elements`.  For a sequence element a
`"[Sequence Item] <path>[<i>]"` line is appended per nested dataset, followed
by the recursion into it at `indent + 4`; for any other element, the
bulk-binary `PixelData` keyword is skipped, otherwise a
`"<indent><keyword> --> <value>"` line is appended when the filter passes. -/
def extract_all_elements : Dataset → List String → Nat → Option (List String) → String → List String
  | [], elements, _, _, _ => elements
  | .raw t k _ _ v :: rest, elements, indent, attrs, path =>
    if kwOrTag k t = "PixelData" then
      extract_all_elements rest elements indent attrs path
    else if passesFilter attrs (kwOrTag k t) then
      extract_all_elements rest
        (elements ++ [indentStr indent ++ kwOrTag k t ++ " --> " ++ v]) indent attrs path
    else
      extract_all_elements rest elements indent attrs path
  | .sq t k _ _ items :: rest, elements, indent, attrs, path =>
    extract_all_elements rest
      (extractSeq items 0 elements indent attrs (dottedPath path (kwOrTag k t)))
      indent attrs path

/-- The `for i, item in enumerate(elem.value)` loop (src/dcmutl.py:542-545):
append the `"[Sequence Item]"` line for the `i`-th nested dataset, then
recurse into it at `indent + 4` with the indexed path. -/
def extractSeq : List (List Elem) → Nat → List String → Nat → Option (List String) → String → List String
  | [], _, elements, _, _, _ => elements
  | item :: more, i, elements, indent, attrs, cp =>
    extractSeq more (i + 1)
      (extract_all_elements item
        (elements ++ [indentStr indent ++ "[Sequence Item] " ++ cp ++ "[" ++ toString i ++ "]"])
        (indent + 4) attrs (cp ++ "[" ++ toString i ++ "]"))
      indent attrs cp

end

/-- One line of `extract_all_elements` output in structured form: either the
`"[Sequence Item] <path>[<i>]"` marker or a `"<keyword> --> <value>"` leaf. -/
inductive EBody : Type where
  | seqItem (sp : String)
  | leaf (kw v : String)

/-- A structured output line together with the nesting depth of the element
that produced it (the traversal starts at depth 0 and enters each nested
dataset one level deeper). -/
abbrev Entry := Nat × EBody

/-- Text of a structured line, without its indentation. -/
def renderBody : EBody → String
  | .seqItem sp => "[Sequence Item] " ++ sp
  | .leaf kw v => kw ++ " --> " ++ v

/-- Text of a structured line: an element at nesting depth `d` is rendered
behind `4 * d` spaces of indentation. -/
def renderEntry (en : Entry) : String := indentStr (4 * en.1) ++ renderBody en.2

mutual

/-- Depth-annotated mirror of `extract_all_elements`: the same traversal and
the same branch conditions, recording for every produced line its structured
form and the nesting depth of the element that produced it. -/
def walkElems : Dataset → Nat → Option (List String) → String → List Entry
  | [], _, _, _ => []
  | .raw t k _ _ v :: rest, dep, attrs, path =>
    (if kwOrTag k t = "PixelData" then []
     else if passesFilter attrs (kwOrTag k t) then [(dep, EBody.leaf (kwOrTag k t) v)]
     else [])
      ++ walkElems rest dep attrs path
  | .sq t k _ _ items :: rest, dep, attrs, path =>
    walkSeq items 0 dep attrs (dottedPath path (kwOrTag k t)) ++ walkElems rest dep attrs path

/-- Depth-annotated mirror of `extractSeq`. -/
def walkSeq : List (List Elem) → Nat → Nat → Option (List String) → String → List Entry
  | [], _, _, _, _ => []
  | item :: more, i, dep, attrs, cp =>
    (dep, EBody.seqItem (cp ++ "[" ++ toString i ++ "]"))
      :: (walkElems item (dep + 1) attrs (cp ++ "[" ++ toString i ++ "]")
          ++ walkSeq more (i + 1) dep attrs cp)

end

theorem extract_eq_walk_aux (N : Nat) :
    (∀ ds : Dataset, sizeOf ds ≤ N → ∀ (acc : List String) (d : Nat)
        (attrs : Option (List String)) (p : String),
        extract_all_elements ds acc (4 * d) attrs p =
          acc ++ (walkElems ds d attrs p).map renderEntry)
    ∧ (∀ its : List (List Elem), sizeOf its ≤ N → ∀ (i : Nat) (acc : List String)
        (d : Nat) (attrs : Option (List String)) (cp : String),
        extractSeq its i acc (4 * d) attrs cp =
          acc ++ (walkSeq its i d attrs cp).map renderEntry) := by
  induction N using Nat.strong_induction_on with
  | _ N ih =>
    constructor
    · intro ds hds acc d attrs p
      match ds with
      | [] => simp [extract_all_elements, walkElems]
      | .raw t k n dsp v :: rest =>
        have hrest : sizeOf rest < N := by
          have := hds; simp at this; omega
        have IH := (ih (sizeOf rest) hrest).1 rest le_rfl
        by_cases hpx : kwOrTag k t = "PixelData"
        · simp [extract_all_elements, walkElems, hpx, IH]
        · by_cases hf : passesFilter attrs (kwOrTag k t) = true
          · simp [extract_all_elements, walkElems, hpx, hf, IH, renderEntry, renderBody,
              String.append_assoc]
          · simp [extract_all_elements, walkElems, hpx, hf, IH]
      | .sq t k n dsp items :: rest =>
        have hrest : sizeOf rest < N := by
          have := hds; simp at this; omega
        have hitems : sizeOf items < N := by
          have := hds; simp at this; omega
        have IH1 := (ih (sizeOf rest) hrest).1 rest le_rfl
        have IH2 := (ih (sizeOf items) hitems).2 items le_rfl
        simp [extract_all_elements, walkElems, IH1, IH2]
    · intro its hits i acc d attrs cp
      match its with
      | [] => simp [extractSeq, walkSeq]
      | item :: more =>
        have hitem : sizeOf item < N := by
          have := hits; simp at this; omega
        have hmore : sizeOf more < N := by
          have := hits; simp at this; omega
        have IH1 := (ih (sizeOf item) hitem).1 item le_rfl
        have IH2 := (ih (sizeOf more) hmore).2 more le_rfl
        have h4 : 4 * d + 4 = 4 * (d + 1) := by omega
        simp [extractSeq, walkSeq, h4, IH1, IH2, renderEntry, renderBody,
          String.append_assoc]

/-- The string output of `extract_all_elements`, started at indentation
`4 * d`, is exactly the rendering of the depth-annotated walk started at
depth `d`, appended to the incoming `elements` list. -/
theorem extract_eq_walk (ds : Dataset) (acc : List String) (d : Nat)
    (attrs : Option (List String)) (p : String) :
    extract_all_elements ds acc (4 * d) attrs p =
      acc ++ (walkElems ds d attrs p).map renderEntry :=
  (extract_eq_walk_aux (sizeOf ds)).1 ds le_rfl acc d attrs p

/-- Test for the `"[Sequence Item]"` marker lines among structured output. -/
def isSeqItem (en : Entry) : Bool :=
  match en.2 with
  | .seqItem _ => true
  | .leaf _ _ => false

/-- Test for a leaf line produced for the reserved bulk-binary keyword. -/
def isPixelLeaf (en : Entry) : Bool :=
  match en.2 with
  | .leaf kw _ => kw == "PixelData"
  | .seqItem _ => false

mutual

/-- Number of non-sequence elements in the whole tree of a dataset whose
effective keyword is not the reserved `"PixelData"` — i.e. the elements for
which the unfiltered traversal emits a `"<keyword> --> <value>"` line. -/
def leafCount : Dataset → Nat
  | [] => 0
  | .raw t k _ _ _ :: rest =>
    (if kwOrTag k t = "PixelData" then 0 else 1) + leafCount rest
  | .sq _ _ _ _ items :: rest => leafCountSeq items + leafCount rest

/-- Sum of `leafCount` over a list of nested datasets. -/
def leafCountSeq : List (List Elem) → Nat
  | [] => 0
  | item :: more => leafCount item + leafCountSeq more

end

mutual

/-- Number of nested datasets hanging under sequence elements in the whole
tree — i.e. the number of `"[Sequence Item]"` lines the traversal emits. -/
def itemCount : Dataset → Nat
  | [] => 0
  | .raw _ _ _ _ _ :: rest => itemCount rest
  | .sq _ _ _ _ items :: rest => itemCountSeq items + itemCount rest

/-- Sum, over a list of nested datasets, of one marker line per dataset plus
the markers inside it. -/
def itemCountSeq : List (List Elem) → Nat
  | [] => 0
  | item :: more => 1 + itemCount item + itemCountSeq more

end

theorem walk_no_pixel_aux (N : Nat) :
    (∀ ds : Dataset, sizeOf ds ≤ N → ∀ (d : Nat) (attrs : Option (List String)) (p : String),
        ∀ en ∈ walkElems ds d attrs p, isPixelLeaf en = false)
    ∧ (∀ its : List (List Elem), sizeOf its ≤ N →
        ∀ (i d : Nat) (attrs : Option (List String)) (cp : String),
        ∀ en ∈ walkSeq its i d attrs cp, isPixelLeaf en = false) := by
  induction N using Nat.strong_induction_on with
  | _ N ih =>
    constructor
    · intro ds hds d attrs p en hen
      match ds with
      | [] => simp [walkElems] at hen
      | .raw t k n dsp v :: rest =>
        have hrest : sizeOf rest < N := by have := hds; simp at this; omega
        have IH := (ih (sizeOf rest) hrest).1 rest le_rfl d attrs p
        by_cases hpx : kwOrTag k t = "PixelData"
        · rw [walkElems] at hen
          simp only [hpx, if_true, List.nil_append] at hen
          exact IH en hen
        · by_cases hf : passesFilter attrs (kwOrTag k t) = true
          · rw [walkElems] at hen
            simp only [hpx, hf, if_false, if_true, List.singleton_append,
              List.mem_cons] at hen
            rcases hen with hen | hen
            · subst hen
              simp [isPixelLeaf, hpx]
            · exact IH en hen
          · rw [walkElems] at hen
            simp only [hpx, hf, if_false, List.nil_append] at hen
            exact IH en hen
      | .sq t k n dsp items :: rest =>
        have hrest : sizeOf rest < N := by have := hds; simp at this; omega
        have hitems : sizeOf items < N := by have := hds; simp at this; omega
        rw [walkElems] at hen
        rcases List.mem_append.mp hen with hen | hen
        · exact (ih (sizeOf items) hitems).2 items le_rfl 0 d attrs _ en hen
        · exact (ih (sizeOf rest) hrest).1 rest le_rfl d attrs p en hen
    · intro its hits i d attrs cp en hen
      match its with
      | [] => simp [walkSeq] at hen
      | item :: more =>
        have hitem : sizeOf item < N := by have := hits; simp at this; omega
        have hmore : sizeOf more < N := by have := hits; simp at this; omega
        rw [walkSeq] at hen
        rcases List.mem_cons.mp hen with hen | hen
        · subst hen; simp [isPixelLeaf]
        · rcases List.mem_append.mp hen with hen | hen
          · exact (ih (sizeOf item) hitem).1 item le_rfl (d + 1) attrs _ en hen
          · exact (ih (sizeOf more) hmore).2 more le_rfl (i + 1) d attrs cp en hen

theorem walk_len_none_aux (N : Nat) :
    (∀ ds : Dataset, sizeOf ds ≤ N → ∀ (d : Nat) (p : String),
        (walkElems ds d none p).length = leafCount ds + itemCount ds)
    ∧ (∀ its : List (List Elem), sizeOf its ≤ N → ∀ (i d : Nat) (cp : String),
        (walkSeq its i d none cp).length = leafCountSeq its + itemCountSeq its) := by
  induction N using Nat.strong_induction_on with
  | _ N ih =>
    constructor
    · intro ds hds d p
      match ds with
      | [] => simp [walkElems, leafCount, itemCount]
      | .raw t k n dsp v :: rest =>
        have hrest : sizeOf rest < N := by have := hds; simp at this; omega
        have IH := (ih (sizeOf rest) hrest).1 rest le_rfl
        by_cases hpx : kwOrTag k t = "PixelData"
        · simp [walkElems, leafCount, itemCount, hpx, IH]
        · simp [walkElems, leafCount, itemCount, hpx, passesFilter, IH]
          omega
      | .sq t k n dsp items :: rest =>
        have hrest : sizeOf rest < N := by have := hds; simp at this; omega
        have hitems : sizeOf items < N := by have := hds; simp at this; omega
        simp [walkElems, leafCount, itemCount,
          (ih (sizeOf rest) hrest).1 rest le_rfl,
          (ih (sizeOf items) hitems).2 items le_rfl]
        omega
    · intro its hits i d cp
      match its with
      | [] => simp [walkSeq, leafCountSeq, itemCountSeq]
      | item :: more =>
        have hitem : sizeOf item < N := by have := hits; simp at this; omega
        have hmore : sizeOf more < N := by have := hits; simp at this; omega
        simp [walkSeq, leafCountSeq, itemCountSeq,
          (ih (sizeOf item) hitem).1 item le_rfl,
          (ih (sizeOf more) hmore).2 more le_rfl]
        omega

theorem walk_filter_indep_aux (N : Nat) :
    (∀ ds : Dataset, sizeOf ds ≤ N →
        ∀ (d : Nat) (attrs attrs' : Option (List String)) (p : String),
        (walkElems ds d attrs p).filter isSeqItem =
          (walkElems ds d attrs' p).filter isSeqItem)
    ∧ (∀ its : List (List Elem), sizeOf its ≤ N →
        ∀ (i d : Nat) (attrs attrs' : Option (List String)) (cp : String),
        (walkSeq its i d attrs cp).filter isSeqItem =
          (walkSeq its i d attrs' cp).filter isSeqItem) := by
  induction N using Nat.strong_induction_on with
  | _ N ih =>
    constructor
    · intro ds hds d attrs attrs' p
      match ds with
      | [] => simp [walkElems]
      | .raw t k n dsp v :: rest =>
        have hrest : sizeOf rest < N := by have := hds; simp at this; omega
        have IH := (ih (sizeOf rest) hrest).1 rest le_rfl
        have hpre : ∀ a : Option (List String),
            ((if kwOrTag k t = "PixelData" then ([] : List Entry)
              else if passesFilter a (kwOrTag k t) then [(d, EBody.leaf (kwOrTag k t) v)]
              else []).filter isSeqItem) = [] := by
          intro a
          by_cases hpx : kwOrTag k t = "PixelData"
          · simp [hpx]
          · by_cases hf : passesFilter a (kwOrTag k t) = true
            · simp [hpx, hf, isSeqItem, List.filter]
            · simp [hpx, hf]
        simp only [walkElems, List.filter_append, hpre, List.nil_append]
        exact IH d attrs attrs' p
      | .sq t k n dsp items :: rest =>
        have hrest : sizeOf rest < N := by have := hds; simp at this; omega
        have hitems : sizeOf items < N := by have := hds; simp at this; omega
        simp only [walkElems, List.filter_append]
        rw [(ih (sizeOf rest) hrest).1 rest le_rfl d attrs attrs' p,
          (ih (sizeOf items) hitems).2 items le_rfl 0 d attrs attrs'
            (dottedPath p (kwOrTag k t))]
    · intro its hits i d attrs attrs' cp
      match its with
      | [] => simp [walkSeq]
      | item :: more =>
        have hitem : sizeOf item < N := by have := hits; simp at this; omega
        have hmore : sizeOf more < N := by have := hits; simp at this; omega
        simp only [walkSeq, List.filter_cons, List.filter_append, isSeqItem]
        rw [(ih (sizeOf item) hitem).1 item le_rfl (d + 1) attrs attrs'
            (cp ++ "[" ++ toString i ++ "]"),
          (ih (sizeOf more) hmore).2 more le_rfl (i + 1) d attrs attrs' cp]

/-- Unfolding of the sequence-element walk: the `i`-th nested dataset (with
indices starting at `i₀`) contributes its `"[Sequence Item]"` marker at the
sequence element's own depth, followed by the recursive walk of the nested
dataset one level deeper, under the indexed path. -/
theorem walkSeq_shape (its : List (List Elem)) :
    ∀ (i₀ d : Nat) (attrs : Option (List String)) (cp : String),
    walkSeq its i₀ d attrs cp =
      ((List.range' i₀ its.length).zip its).flatMap (fun pr =>
        (d, EBody.seqItem (cp ++ "[" ++ toString pr.1 ++ "]"))
          :: walkElems pr.2 (d + 1) attrs (cp ++ "[" ++ toString pr.1 ++ "]")) := by
  induction its with
  | nil => intro i₀ d attrs cp; simp [walkSeq]
  | cons item more ih =>
    intro i₀ d attrs cp
    simp only [walkSeq, List.length_cons, List.range'_succ, List.zip_cons_cons,
      List.flatMap_cons, ih, List.cons_append]

/-- Test whether a string starts with a space character. -/
def startsWithSpace (s : String) : Bool :=
  match s.data with
  | [] => false
  | c :: _ => c == ' '

/-- Test whether a string is non-empty and does not start with a space. -/
def headCharNotSpace (s : String) : Bool :=
  match s.data with
  | [] => false
  | c :: _ => !(c == ' ')

theorem data_append (a b : String) : (a ++ b).data = a.data ++ b.data := by
  cases a; cases b; rfl

theorem headCharNotSpace_append (s r : String) (h : headCharNotSpace s = true) :
    headCharNotSpace (s ++ r) = true := by
  obtain ⟨ds⟩ := s
  match ds with
  | [] => simp [headCharNotSpace] at h
  | c :: cs =>
    rw [headCharNotSpace] at h ⊢
    rw [data_append]
    exact h

theorem startsWithSpace_append (s r : String) (h : headCharNotSpace s = true) :
    startsWithSpace (s ++ r) = false := by
  obtain ⟨ds⟩ := s
  match ds with
  | [] => simp [headCharNotSpace] at h
  | c :: cs =>
    rw [headCharNotSpace] at h
    rw [startsWithSpace, data_append]
    simpa using h

mutual

/-- Keyword wellformedness of a dataset: every non-sequence element's
effective keyword (`elem.keyword or elem.tag`) is non-empty and does not begin
with a space — true of every DICOM dictionary keyword and of the rendered
numeric tag form `(gggg, eeee)`. -/
def noLeadSp : Dataset → Bool
  | [] => true
  | .raw t k _ _ _ :: rest => headCharNotSpace (kwOrTag k t) && noLeadSp rest
  | .sq _ _ _ _ items :: rest => noLeadSpSeq items && noLeadSp rest

/-- Keyword wellformedness of a list of nested datasets. -/
def noLeadSpSeq : List (List Elem) → Bool
  | [] => true
  | item :: more => noLeadSp item && noLeadSpSeq more

end

theorem walk_nospace_aux (N : Nat) :
    (∀ ds : Dataset, sizeOf ds ≤ N → noLeadSp ds = true →
        ∀ (d : Nat) (attrs : Option (List String)) (p : String),
        ∀ en ∈ walkElems ds d attrs p, startsWithSpace (renderBody en.2) = false)
    ∧ (∀ its : List (List Elem), sizeOf its ≤ N → noLeadSpSeq its = true →
        ∀ (i d : Nat) (attrs : Option (List String)) (cp : String),
        ∀ en ∈ walkSeq its i d attrs cp, startsWithSpace (renderBody en.2) = false) := by
  induction N using Nat.strong_induction_on with
  | _ N ih =>
    constructor
    · intro ds hds hwf d attrs p en hen
      match ds with
      | [] => simp [walkElems] at hen
      | .raw t k n dsp v :: rest =>
        have hrest : sizeOf rest < N := by have := hds; simp at this; omega
        rw [noLeadSp, Bool.and_eq_true] at hwf
        have IH := (ih (sizeOf rest) hrest).1 rest le_rfl hwf.2 d attrs p
        rw [walkElems] at hen
        rcases List.mem_append.mp hen with hen | hen
        · have hkw : headCharNotSpace (kwOrTag k t) = true := hwf.1
          by_cases hpx : kwOrTag k t = "PixelData"
          · simp [hpx] at hen
          · by_cases hf : passesFilter attrs (kwOrTag k t) = true
            · simp only [hpx, hf, if_false, if_true, List.mem_singleton] at hen
              subst hen
              rw [renderBody]
              exact startsWithSpace_append _ _
                (headCharNotSpace_append _ _ hkw)
            · simp [hpx, hf] at hen
        · exact IH en hen
      | .sq t k n dsp items :: rest =>
        have hrest : sizeOf rest < N := by have := hds; simp at this; omega
        have hitems : sizeOf items < N := by have := hds; simp at this; omega
        rw [noLeadSp, Bool.and_eq_true] at hwf
        rw [walkElems] at hen
        rcases List.mem_append.mp hen with hen | hen
        · exact (ih (sizeOf items) hitems).2 items le_rfl hwf.1 0 d attrs _ en hen
        · exact (ih (sizeOf rest) hrest).1 rest le_rfl hwf.2 d attrs p en hen
    · intro its hits hwf i d attrs cp en hen
      match its with
      | [] => simp [walkSeq] at hen
      | item :: more =>
        have hitem : sizeOf item < N := by have := hits; simp at this; omega
        have hmore : sizeOf more < N := by have := hits; simp at this; omega
        rw [noLeadSpSeq, Bool.and_eq_true] at hwf
        rw [walkSeq] at hen
        rcases List.mem_cons.mp hen with hen | hen
        · subst hen
          rw [renderBody]
          exact startsWithSpace_append _ _ (by decide)
        · rcases List.mem_append.mp hen with hen | hen
          · exact (ih (sizeOf item) hitem).1 item le_rfl hwf.1 (d + 1) attrs _ en hen
          · exact (ih (sizeOf more) hmore).2 more le_rfl hwf.2 (i + 1) d attrs cp en hen

/-- Core of `get_dicom_elements_file(file, dest_folder, attrs)`
(src/dcmutl.py:569-577): the flat `elements` list it builds — one
`"<tag> --> <element>"` line per top-level element when no filter is given,
and one per element whose raw keyword is listed when a filter is given.  The
surrounding file reading and writing is I/O glue outside this core. -/
def get_dicom_elements_file : Dataset → Option (List String) → List String
  | [], _ => []
  | e :: rest, none =>
    (e.tag ++ " --> " ++ e.display) :: get_dicom_elements_file rest none
  | e :: rest, some l =>
    if l.contains e.keyword then
      (e.tag ++ " --> " ++ e.display) :: get_dicom_elements_file rest (some l)
    else
      get_dicom_elements_file rest (some l)

theorem flat_length_none (ds : Dataset) :
    (get_dicom_elements_file ds none).length = ds.length := by
  induction ds with
  | nil => simp [get_dicom_elements_file]
  | cons e rest ih => simp [get_dicom_elements_file, ih]

/-- `get_image_index(n, t)` (src/dcmutl.py:385-400), with an explicit
recursion budget (`fuel`): Python recurses without bound, so `none` models a
computation that exceeds the given recursion depth.  Each step either returns
`t` when `t < n` or recurses on `t - n`. -/
def get_image_index : Nat → Int → Int → Option Int
  | 0, _, _ => none
  | fuel + 1, n, t => if t < n then some t else get_image_index fuel n (t - n)

/-- The direct arithmetic the spec proposes as the replacement:
`t mod n` (mathematical modulo). -/
def image_index_spec (n t : Int) : Int := t % n

theorem get_image_index_eq (fuel : Nat) :
    ∀ n t : Int, 0 < n → 0 ≤ t → t < (fuel : Int) →
    get_image_index fuel n t = some (t % n) := by
  induction fuel with
  | zero =>
    intro n t hn ht hf
    simp only [Nat.cast_zero] at hf
    omega
  | succ fuel ihf =>
    intro n t hn ht hf
    rw [get_image_index]
    by_cases h : t < n
    · rw [if_pos h, Int.emod_eq_of_lt ht h]
    · rw [if_neg h]
      have h1 : (t - n) % n = t % n := by
        conv_rhs => rw [show t = t - n + n * 1 by ring]
        rw [Int.add_mul_emod_self_left]
      have hb : t - n < (fuel : Int) := by push_cast at hf ⊢; omega
      rw [ihf n (t - n) hn (by omega) hb, h1]

mutual

/-- Structural (field-by-field, value) equality of two datasets: the same
elements, in the same order, with the same nested structure — without any
requirement that the two are the same object. -/
def elemsEq : Dataset → Dataset → Bool
  | [], [] => true
  | .raw t k n d v :: r1, .raw t' k' n' d' v' :: r2 =>
    t == t' && (k == k' && (n == n' && (d == d' && (v == v' && elemsEq r1 r2))))
  | .sq t k n d its :: r1, .sq t' k' n' d' its' :: r2 =>
    t == t' && (k == k' && (n == n' && (d == d' && (itemsEq its its' && elemsEq r1 r2))))
  | _, _ => false

/-- Structural equality of two lists of nested datasets. -/
def itemsEq : List (List Elem) → List (List Elem) → Bool
  | [], [] => true
  | i1 :: m1, i2 :: m2 => elemsEq i1 i2 && itemsEq m1 m2
  | _, _ => false

end

theorem structEq_sound_aux (N : Nat) :
    (∀ a : Dataset, sizeOf a ≤ N → ∀ b : Dataset, elemsEq a b = true → a = b)
    ∧ (∀ xs : List (List Elem), sizeOf xs ≤ N →
        ∀ ys : List (List Elem), itemsEq xs ys = true → xs = ys) := by
  induction N using Nat.strong_induction_on with
  | _ N ih =>
    constructor
    · intro a ha b hab
      match a, b with
      | [], [] => rfl
      | [], _ :: _ => simp [elemsEq] at hab
      | .raw _ _ _ _ _ :: _, [] => simp [elemsEq] at hab
      | .sq _ _ _ _ _ :: _, [] => simp [elemsEq] at hab
      | .raw t k n d v :: r1, .raw t' k' n' d' v' :: r2 =>
        have hr : sizeOf r1 < N := by have := ha; simp at this; omega
        rw [elemsEq] at hab
        simp only [Bool.and_eq_true, beq_iff_eq] at hab
        obtain ⟨h1, h2, h3, h4, h5, h6⟩ := hab
        rw [h1, h2, h3, h4, h5, (ih (sizeOf r1) hr).1 r1 le_rfl r2 h6]
      | .raw _ _ _ _ _ :: _, .sq _ _ _ _ _ :: _ => simp [elemsEq] at hab
      | .sq _ _ _ _ _ :: _, .raw _ _ _ _ _ :: _ => simp [elemsEq] at hab
      | .sq t k n d its :: r1, .sq t' k' n' d' its' :: r2 =>
        have hr : sizeOf r1 < N := by have := ha; simp at this; omega
        have hi : sizeOf its < N := by have := ha; simp at this; omega
        rw [elemsEq] at hab
        simp only [Bool.and_eq_true, beq_iff_eq] at hab
        obtain ⟨h1, h2, h3, h4, h5, h6⟩ := hab
        rw [h1, h2, h3, h4, (ih (sizeOf its) hi).2 its le_rfl its' h5,
          (ih (sizeOf r1) hr).1 r1 le_rfl r2 h6]
    · intro xs hxs ys hxy
      match xs, ys with
      | [], [] => rfl
      | [], _ :: _ => simp [itemsEq] at hxy
      | _ :: _, [] => simp [itemsEq] at hxy
      | i1 :: m1, i2 :: m2 =>
        have h1 : sizeOf i1 < N := by have := hxs; simp at this; omega
        have h2 : sizeOf m1 < N := by have := hxs; simp at this; omega
        rw [itemsEq, Bool.and_eq_true] at hxy
        rw [(ih (sizeOf i1) h1).1 i1 le_rfl i2 hxy.1,
          (ih (sizeOf m1) h2).2 m1 le_rfl m2 hxy.2]

theorem elemsEq_sound (a b : Dataset) (h : elemsEq a b = true) : a = b :=
  (structEq_sound_aux (sizeOf a)).1 a le_rfl b h

mutual

/-- State-passing embedding of `extract_all_elements` in which the traversed
dataset itself is threaded through the computation alongside the mutable
`elements` list: every element the loop visits is passed back out.  Since the
source contains no statement that assigns into the dataset, the dataset
component of the state is rebuilt from exactly the elements that were read;
the theorem `extractRun` is the program's frame condition. -/
def extractRun : Dataset → List String → Nat → Option (List String) → String → Dataset × List String
  | [], elements, _, _, _ => ([], elements)
  | .raw t k n d v :: rest, elements, indent, attrs, path =>
    match extractRun rest
        (if kwOrTag k t = "PixelData" then elements
         else if passesFilter attrs (kwOrTag k t) then
           elements ++ [indentStr indent ++ kwOrTag k t ++ " --> " ++ v]
         else elements)
        indent attrs path with
    | (rest', out) => (Elem.raw t k n d v :: rest', out)
  | .sq t k n d items :: rest, elements, indent, attrs, path =>
    match extractRunSeq items 0 elements indent attrs (dottedPath path (kwOrTag k t)) with
    | (items', out1) =>
      match extractRun rest out1 indent attrs path with
      | (rest', out2) => (Elem.sq t k n d items' :: rest', out2)

/-- State-passing embedding of the sequence loop of `extract_all_elements`. -/
def extractRunSeq : List (List Elem) → Nat → List String → Nat → Option (List String) → String → (List (List Elem) × List String)
  | [], _, elements, _, _, _ => ([], elements)
  | item :: more, i, elements, indent, attrs, cp =>
    match extractRun item
        (elements ++ [indentStr indent ++ "[Sequence Item] " ++ cp ++ "[" ++ toString i ++ "]"])
        (indent + 4) attrs (cp ++ "[" ++ toString i ++ "]") with
    | (item', out1) =>
      match extractRunSeq more (i + 1) out1 indent attrs cp with
      | (more', out2) => (item' :: more', out2)

end

mutual

/-- State-passing embedding of the `ds_to_dict` loop, threading the traversed
dataset through the computation alongside the dictionary being built. -/
def dsRunLoop : Dataset → PyDict → Dataset × PyDict
  | [], out => ([], out)
  | .raw t k n d v :: rest, out =>
    match dsRunLoop rest (dictInsert out n (DVal.s v)) with
    | (rest', out') => (Elem.raw t k n d v :: rest', out')
  | .sq t k n d items :: rest, out =>
    match dsRunList items with
    | (items', converted) =>
      match dsRunLoop rest (dictInsert out n (DVal.l converted)) with
      | (rest', out') => (Elem.sq t k n d items' :: rest', out')

/-- State-passing embedding of the nested-dataset comprehension of
`ds_to_dict`. -/
def dsRunList : List (List Elem) → (List (List Elem) × List PyDict)
  | [] => ([], [])
  | item :: more =>
    match dsRunLoop item [] with
    | (item', dd) =>
      match dsRunList more with
      | (more', dds) => (item' :: more', dd :: dds)

end

theorem extractRun_eq_aux (N : Nat) :
    (∀ ds : Dataset, sizeOf ds ≤ N → ∀ (acc : List String) (indent : Nat)
        (attrs : Option (List String)) (p : String),
        extractRun ds acc indent attrs p = (ds, extract_all_elements ds acc indent attrs p))
    ∧ (∀ its : List (List Elem), sizeOf its ≤ N → ∀ (i : Nat) (acc : List String)
        (indent : Nat) (attrs : Option (List String)) (cp : String),
        extractRunSeq its i acc indent attrs cp = (its, extractSeq its i acc indent attrs cp)) := by
  induction N using Nat.strong_induction_on with
  | _ N ih =>
    constructor
    · intro ds hds acc indent attrs p
      match ds with
      | [] => simp [extractRun, extract_all_elements]
      | .raw t k n dsp v :: rest =>
        have hrest : sizeOf rest < N := by have := hds; simp at this; omega
        have IH := (ih (sizeOf rest) hrest).1 rest le_rfl
        by_cases hpx : kwOrTag k t = "PixelData"
        · simp [extractRun, extract_all_elements, hpx, IH]
        · by_cases hf : passesFilter attrs (kwOrTag k t) = true
          · simp [extractRun, extract_all_elements, hpx, hf, IH]
          · simp [extractRun, extract_all_elements, hpx, hf, IH]
      | .sq t k n dsp items :: rest =>
        have hrest : sizeOf rest < N := by have := hds; simp at this; omega
        have hitems : sizeOf items < N := by have := hds; simp at this; omega
        simp [extractRun, extract_all_elements,
          (ih (sizeOf rest) hrest).1 rest le_rfl,
          (ih (sizeOf items) hitems).2 items le_rfl]
    · intro its hits i acc indent attrs cp
      match its with
      | [] => simp [extractRunSeq, extractSeq]
      | item :: more =>
        have hitem : sizeOf item < N := by have := hits; simp at this; omega
        have hmore : sizeOf more < N := by have := hits; simp at this; omega
        simp [extractRunSeq, extractSeq,
          (ih (sizeOf item) hitem).1 item le_rfl,
          (ih (sizeOf more) hmore).2 more le_rfl]

theorem dsRun_eq_aux (N : Nat) :
    (∀ ds : Dataset, sizeOf ds ≤ N → ∀ out : PyDict,
        dsRunLoop ds out = (ds, dsLoop ds out))
    ∧ (∀ its : List (List Elem), sizeOf its ≤ N →
        dsRunList its = (its, dsList its)) := by
  induction N using Nat.strong_induction_on with
  | _ N ih =>
    constructor
    · intro ds hds out
      match ds with
      | [] => simp [dsRunLoop, dsLoop]
      | .raw t k n dsp v :: rest =>
        have hrest : sizeOf rest < N := by have := hds; simp at this; omega
        simp [dsRunLoop, dsLoop, (ih (sizeOf rest) hrest).1 rest le_rfl]
      | .sq t k n dsp items :: rest =>
        have hrest : sizeOf rest < N := by have := hds; simp at this; omega
        have hitems : sizeOf items < N := by have := hds; simp at this; omega
        simp [dsRunLoop, dsLoop, (ih (sizeOf rest) hrest).1 rest le_rfl,
          (ih (sizeOf items) hitems).2 items le_rfl]
    · intro its hits
      match its with
      | [] => simp [dsRunList, dsList]
      | item :: more =>
        have hitem : sizeOf item < N := by have := hits; simp at this; omega
        have hmore : sizeOf more < N := by have := hits; simp at this; omega
        simp [dsRunList, dsList, (ih (sizeOf item) hitem).1 item le_rfl,
          (ih (sizeOf more) hmore).2 more le_rfl]

theorem oOr_none (x : Option DVal) : oOr x none = x := by
  cases x <;> rfl

theorem lastNamed_eq_none (ds : Dataset) (nm : String)
    (h : ∀ x ∈ ds, x.name ≠ nm) : lastNamed ds nm = none := by
  induction ds with
  | nil => rfl
  | cons e rest ih =>
    rw [lastNamed, ih (fun x hx => h x (List.mem_cons_of_mem e hx))]
    simp [h e (List.mem_cons_self e rest)]

theorem lastNamed_nodup (ds : Dataset) (hn : (ds.map Elem.name).Nodup)
    (e : Elem) (he : e ∈ ds) : lastNamed ds e.name = some e := by
  induction ds with
  | nil => simp at he
  | cons f rest ih =>
    rw [List.map_cons, List.nodup_cons] at hn
    rcases List.mem_cons.mp he with he | he
    · subst he
      have hnone : lastNamed rest e.name = none := by
        apply lastNamed_eq_none
        intro x hx hxe
        exact hn.1 (hxe ▸ List.mem_map_of_mem Elem.name hx)
      rw [lastNamed, hnone]
      simp
    · rw [lastNamed, ih hn.2 he]

theorem lastNamed_eq_revFind (ds : Dataset) (nm : String) :
    lastNamed ds nm = ds.reverse.find? (fun e => e.name == nm) := by
  induction ds with
  | nil => rfl
  | cons e rest ih =>
    rw [lastNamed, ih, List.reverse_cons, List.find?_append]
    cases rest.reverse.find? (fun e => e.name == nm) with
    | some x => rfl
    | none =>
      simp only [Option.or]
      by_cases h : e.name = nm
      · simp [List.find?, h]
      · have hb : (e.name == nm) = false := by simp [h]
        simp [List.find?, hb, h]

/-- A dataset with two elements sharing the display name `"X"`: a sequence
element with one nested (empty) dataset followed by a non-sequence element
with value `"v"`. -/
def dsC1 : Dataset :=
  [Elem.sq "T1" "K1" "X" "D1" [[]], Elem.raw "T2" "K2" "X" "D2" "v"]

/-- A one-element dataset: the `Modality` element with value `"CT"`. -/
def dsC2 : Dataset :=
  [Elem.raw "(0008, 0060)" "Modality" "Modality" "(0008, 0060) CS: CT" "CT"]

/-- A dataset whose two elements have distinct display names. -/
def dsW : Dataset :=
  [Elem.sq "t2" "k2" "B" "d2" [[]], Elem.raw "t1" "k1" "A" "d1" "v"]

/-- The sequence element of `dsW`, carrying one nested (empty) dataset. -/
def eW : Elem := Elem.sq "t2" "k2" "B" "d2" [[]]

/-- A two-level dataset: a sequence element with one nested dataset holding a
non-sequence element, followed by a top-level non-sequence element. -/
def ds4 : Dataset :=
  [Elem.sq "T" "Seq" "SeqName" "D" [[Elem.raw "T2" "Inner" "InnerName" "D2" "val"]],
   Elem.raw "T3" "Modality" "Modality" "D3" "CT"]

/-- A one-element dataset. -/
def dsA : Dataset := [Elem.raw "t" "k" "N" "d" "v"]

/-- A second dataset, structurally identical to `dsA` but a distinct
definition. -/
def dsB : Dataset := [Elem.raw "t" "k" "N" "d" "v"]

/-- C1 (amended): for every dataset whose elements have pairwise distinct
display names, `ds_to_dict` stores each element under its display name — a
sequence element with `k` nested datasets as the list of the `k` recursively
converted dictionaries (in order, so of length `k`), and every other element
as the string form of its value. -/
theorem claimC1 (ds : Dataset) (hn : (ds.map Elem.name).Nodup)
    (e : Elem) (he : e ∈ ds) :
    dictLookup (ds_to_dict ds) e.name = some (convElem e)
    ∧ convElem e = (match e with
        | .raw _ _ _ _ v => DVal.s v
        | .sq _ _ _ _ items => DVal.l (items.map ds_to_dict))
    ∧ (match e with
        | .raw _ _ _ _ _ => True
        | .sq _ _ _ _ items => (items.map ds_to_dict).length = items.length) := by
  refine ⟨?_, ?_, ?_⟩
  · have h := dsLoop_lookup ds [] e.name
    rw [lastNamed_nodup ds hn e he] at h
    simpa [ds_to_dict, dictLookup, oOr] using h
  · cases e <;> simp [convElem]
  · cases e with
    | raw t k n d v => trivial
    | sq t k n d items => simp

/-- C1 (counterexample): in `dsC1` a sequence element named `"X"` (with one
nested dataset) is followed by a non-sequence element with the same name, and
the mapping holds the string `"v"` under `"X"`, not the one-entry list of
converted datasets the claim promises for the sequence element. -/
theorem claimC1_counterexample :
    dictLookup (ds_to_dict dsC1) "X" = some (DVal.s "v")
    ∧ dictLookup (ds_to_dict dsC1) "X" ≠ some (DVal.l [ds_to_dict []]) := by
  constructor
  · simp [dsC1, ds_to_dict, dsLoop, dsList, dictInsert, dictLookup]
  · simp [dsC1, ds_to_dict, dsLoop, dsList, dictInsert, dictLookup]

/-- Witness for C1: in `dsW` (names `"B"`, `"A"`, no collision), the
sequence element `eW` is stored under `"B"` as the one-entry list of its
converted nested dataset. -/
theorem claimC1_witness :
    dictLookup (ds_to_dict dsW) "B" = some (DVal.l [[]]) := by
  have h := (claimC1 dsW (by decide) eW (by simp [dsW, eW])).1
  simpa [eW, Elem.name, convElem, ds_to_dict, dsLoop] using h

/-- C2 (amended): with no keyword filter (`attrs is None`) nothing is
restricted — `extract_all_elements` emits exactly one line per
`"[Sequence Item]"` marker plus one line per non-sequence element of the whole
tree other than the reserved `PixelData` keyword, and
`get_dicom_elements_file` emits one line per top-level element. -/
theorem claimC2 :
    (∀ (ds : Dataset) (acc : List String) (d : Nat) (p : String),
      (extract_all_elements ds acc (4 * d) none p).length =
        acc.length + (leafCount ds + itemCount ds))
    ∧ ∀ ds : Dataset, (get_dicom_elements_file ds none).length = ds.length := by
  constructor
  · intro ds acc d p
    rw [extract_eq_walk]
    simp [(walk_len_none_aux (sizeOf ds)).1 ds le_rfl d p]
  · exact flat_length_none

/-- C2 (counterexample): an empty — but present — keyword filter is a real
restriction, not the absence of one.  `dsC2` holds one eligible non-sequence
element (`Modality`, so `leafCount dsC2 = 1` and `dsC2.length = 1`), yet under
the empty filter `some []` both traversals emit no line at all, where the
claim promises one line for the element in each output. -/
theorem claimC2_counterexample :
    extract_all_elements dsC2 [] 0 (some []) "" = []
    ∧ get_dicom_elements_file dsC2 (some []) = []
    ∧ leafCount dsC2 = 1
    ∧ dsC2.length = 1 := by
  refine ⟨?_, ?_, ?_, rfl⟩
  · simp [dsC2, extract_all_elements, kwOrTag, passesFilter]
  · simp [dsC2, get_dicom_elements_file, Elem.keyword]
  · simp [dsC2, leafCount, kwOrTag]

/-- C3: for every dataset and every keyword filter — including a filter that
lists `"PixelData"` — the output of `extract_all_elements` is the rendering of
the structured walk, and that walk contains no leaf line for the reserved
bulk-binary keyword `"PixelData"`; hence the output has zero lines for it. -/
theorem claimC3 (ds : Dataset) (acc : List String) (d : Nat)
    (attrs : Option (List String)) (p : String) :
    extract_all_elements ds acc (4 * d) attrs p =
      acc ++ (walkElems ds d attrs p).map renderEntry
    ∧ (walkElems ds d attrs p).all (fun en => !isPixelLeaf en) = true := by
  refine ⟨extract_eq_walk ds acc d attrs p, ?_⟩
  rw [List.all_eq_true]
  intro en hen
  simp [(walk_no_pixel_aux (sizeOf ds)).1 ds le_rfl d attrs p en hen]

/-- C4: started at indent 0, every line `extract_all_elements` emits for an
element at nesting depth `d` is `4 * d` spaces followed by a body that does
not itself begin with a space (under the keyword wellformedness every real
DICOM dataset satisfies), and for a sequence element the walk emits the
`"[Sequence Item] <path>[<i>]"` marker for the `i`-th nested dataset before
the recursion into that dataset one level (four spaces) deeper. -/
theorem claimC4 (ds : Dataset) (attrs : Option (List String)) (p : String)
    (h : noLeadSp ds = true) :
    extract_all_elements ds [] 0 attrs p = (walkElems ds 0 attrs p).map renderEntry
    ∧ (∀ en ∈ walkElems ds 0 attrs p,
        renderEntry en = indentStr (4 * en.1) ++ renderBody en.2
        ∧ startsWithSpace (renderBody en.2) = false)
    ∧ (∀ (its : List (List Elem)) (i₀ dep : Nat) (cp : String),
        walkSeq its i₀ dep attrs cp =
          ((List.range' i₀ its.length).zip its).flatMap (fun pr =>
            (dep, EBody.seqItem (cp ++ "[" ++ toString pr.1 ++ "]"))
              :: walkElems pr.2 (dep + 1) attrs (cp ++ "[" ++ toString pr.1 ++ "]"))) := by
  refine ⟨?_, ?_, ?_⟩
  · simpa using extract_eq_walk ds [] 0 attrs p
  · intro en hen
    exact ⟨rfl, (walk_nospace_aux (sizeOf ds)).1 ds le_rfl h 0 attrs p en hen⟩
  · intro its i₀ dep cp
    exact walkSeq_shape its i₀ dep attrs cp

/-- Witness for C4 at the two-level dataset `ds4`. -/
theorem claimC4_witness :
    noLeadSp ds4 = true
    ∧ extract_all_elements ds4 [] 0 none "" = (walkElems ds4 0 none "").map renderEntry := by
  have hw : noLeadSp ds4 = true := by
    simp only [ds4, noLeadSp, noLeadSpSeq]
    decide
  exact ⟨hw, (claimC4 ds4 none "" hw).1⟩

/-- C5: for every `n > 0` and `t ≥ 0`, `get_image_index` terminates within a
recursion budget of `t + 1` steps and returns exactly the direct arithmetic
`t mod n`. -/
theorem claimC5 (n t : Int) (hn : 0 < n) (ht : 0 ≤ t) :
    get_image_index (t.toNat + 1) n t = some (image_index_spec n t) := by
  rw [image_index_spec]
  apply get_image_index_eq _ n t hn ht
  push_cast
  omega

/-- Witness for C5 at `n = 3`, `t = 7`: the recursion yields `7 mod 3 = 1`. -/
theorem claimC5_witness :
    get_image_index ((7 : Int).toNat + 1) 3 7 = some (image_index_spec 3 7)
    ∧ get_image_index 8 3 7 = some 1 :=
  ⟨claimC5 3 7 (by decide) (by decide), by decide⟩

/-- C6: `ds_to_dict` keeps, under each display name, exactly the converted
value of the last element bearing that name (`lastNamed`, equivalently the
first match in the reversed element list) — later elements overwrite
earlier entries. -/
theorem claimC6 (ds : Dataset) (nm : String) :
    dictLookup (ds_to_dict ds) nm = (lastNamed ds nm).map convElem
    ∧ lastNamed ds nm = ds.reverse.find? (fun e => e.name == nm) := by
  refine ⟨?_, lastNamed_eq_revFind ds nm⟩
  have h := dsLoop_lookup ds [] nm
  simpa [ds_to_dict, dictLookup, oOr_none] using h

/-- C7: `ds_to_dict` is a deterministic function of the structure of its
input — structurally equal (field-by-field) datasets, however distinct,
yield value-equal dictionaries. -/
theorem claimC7 (d1 d2 : Dataset) (h : elemsEq d1 d2 = true) :
    ds_to_dict d1 = ds_to_dict d2 := by
  rw [elemsEq_sound d1 d2 h]

/-- Witness for C7: the separately defined, structurally identical `dsA` and
`dsB` convert to equal dictionaries. -/
theorem claimC7_witness : ds_to_dict dsA = ds_to_dict dsB :=
  claimC7 dsA dsB (by simp [dsA, dsB, elemsEq])

/-- C8: the traversals never mutate the dataset they visit — in the
state-passing embedding that threads the dataset through `ds_to_dict` and
`extract_all_elements`, the dataset component comes back unchanged (and the
other component is exactly the pure traversal's output). -/
theorem claimC8 (ds : Dataset) (acc : List String) (indent : Nat)
    (attrs : Option (List String)) (p : String) :
    extractRun ds acc indent attrs p = (ds, extract_all_elements ds acc indent attrs p)
    ∧ dsRunLoop ds [] = (ds, ds_to_dict ds) :=
  ⟨(extractRun_eq_aux (sizeOf ds)).1 ds le_rfl acc indent attrs p,
   (dsRun_eq_aux (sizeOf ds)).1 ds le_rfl []⟩

/-- C9: the keyword filter restricts only the non-sequence leaf lines — the
`"[Sequence Item]"` marker lines of `extract_all_elements` (at every nesting
depth, so the recursion into every nested dataset happens) are identical for
any two filters. -/
theorem claimC9 (ds : Dataset) (d : Nat) (attrs attrs' : Option (List String))
    (p : String) :
    (walkElems ds d attrs p).filter isSeqItem =
      (walkElems ds d attrs' p).filter isSeqItem
    ∧ extract_all_elements ds [] (4 * d) attrs p =
      (walkElems ds d attrs p).map renderEntry := by
  refine ⟨(walk_filter_indep_aux (sizeOf ds)).1 ds le_rfl d attrs attrs' p, ?_⟩
  simpa using extract_eq_walk ds [] d attrs p

/-- C10: when an element's keyword is empty, `extract_all_elements` falls back
to the display form of its numeric tag, both in the emitted
`"<keyword> --> <value>"` line and in the dotted path used for sequence
recursion. -/
theorem claimC10 (t n' dsp v : String) (items : List (List Elem))
    (rest : Dataset) (acc : List String) (indent : Nat)
    (attrs : Option (List String)) (p : String) (ht : t ≠ "PixelData") :
    extract_all_elements (Elem.raw t "" n' dsp v :: rest) acc indent none p =
      extract_all_elements rest (acc ++ [indentStr indent ++ t ++ " --> " ++ v])
        indent none p
    ∧ extract_all_elements (Elem.sq t "" n' dsp items :: rest) acc indent attrs p =
      extract_all_elements rest
        (extractSeq items 0 acc indent attrs (if p = "" then t else p ++ "." ++ t))
        indent attrs p := by
  constructor
  · rw [extract_all_elements]
    simp [kwOrTag, passesFilter, ht]
  · rw [extract_all_elements]
    simp [kwOrTag, dottedPath]

/-- Witness for C10: a keyword-less private element is listed under its tag's
display form. -/
theorem claimC10_witness :
    extract_all_elements [Elem.raw "(0009, 0001)" "" "Nm" "D" "42"] [] 0 none "" =
      ["(0009, 0001) --> 42"] := by
  have h := (claimC10 "(0009, 0001)" "Nm" "D" "42" [[]] [] [] 0 none "" (by decide)).1
  rw [h]
  simp only [extract_all_elements, List.nil_append]
  decide

end Dcmutl
